import Mathlib

/-!
# Verification of the mordle word-game core

A shallow embedding of the core algorithms of the mordle repository
(`mrdle.cpp`, `util.h`): word-list loading (`InitWordListFile`), membership
lookup (`IsWordInList`), guess evaluation (`CheckWordGuess`), hint-based
filtering (`CheckWordAgainstHint`, `ListWords`).  Words are modelled as
`List Char`; the word store as a `List (List Char)`; the output parameter of
`CheckWordGuess` as explicit state passing.  The `while` loops of the C++
source are modelled with an explicit fuel argument that we prove sufficient
at every call site used by the theorems.
-/

namespace Mrdle

/-- Result code (mrdle.h `res_matched`): letter is in the correct spot. -/
def res_matched : Char := '!'

/-- Result code (mrdle.h `res_missing`): letter is not in the word. -/
def res_missing : Char := 'x'

/-- Result code (mrdle.h `res_mislaid`): letter is in the wrong spot. -/
def res_mislaid : Char := '~'

/-- Result code (mrdle.h `res_unknown`): letter has not been processed yet. -/
def res_unknown : Char := ' '

/-- The whitespace characters stripped by `string_trim` (util.h `my_ws`). -/
def ws_chars : List Char := [' ', '\t', '\n', '\r', '\x0c', '\x0b']

/-- Whether a character counts as whitespace for trimming. -/
def isWS (c : Char) : Bool := ws_chars.contains c

/-- util.h `string_trim`: erase leading whitespace, then trailing whitespace. -/
def string_trim (s : List Char) : List Char :=
  ((s.dropWhile isWS).reverse.dropWhile isWS).reverse

/-- `std::tolower` in the C locale: lower-case ASCII letters, else identity. -/
def toLowerChar (c : Char) : Char :=
  if 'A' ≤ c ∧ c ≤ 'Z' then Char.ofNat (c.toNat + 32) else c

/-- util.h `string_to_lower`: transform every character with `tolower`. -/
def string_to_lower (s : List Char) : List Char := s.map toLowerChar

/-- Lexicographic `operator<=` on `std::string`, as a Bool on char lists. -/
def strLe : List Char → List Char → Bool
  | [], _ => true
  | _ :: _, [] => false
  | a :: as, b :: bs => if a < b then true else if b < a then false else strLe as bs

/-- Insert a word into an already sorted word list. -/
def insertSorted (w : List Char) : List (List Char) → List (List Char)
  | [] => [w]
  | x :: xs => if strLe w x then w :: x :: xs else x :: insertSorted w xs

/-- Models the `std::sort` call of `InitWordListFile`: a sorting function on
word lists (insertion sort; we prove it yields a sorted permutation). -/
def sortWords : List (List Char) → List (List Char)
  | [] => []
  | x :: xs => insertSorted x (sortWords xs)

/-- The state of `m_words` after a load attempt, together with whether the
"Inconsistent word length" error path was taken. -/
structure LoadResult where
  err : Bool
  words : List (List Char)
deriving Repr, DecidableEq

/-- The `while (std::getline(...))` loop body of `mrdle::InitWordListFile`:
trim the line, establish `word_len` at the first line, fail (clearing the
store) on a length mismatch, otherwise lower-case and append. -/
def loadLines : List (List Char) → List (List Char) → Nat → LoadResult
  | [], acc, _ => ⟨false, acc⟩
  | line :: rest, acc, word_len =>
    let w := string_trim line
    let wl := if word_len = 0 then w.length else word_len
    if w.length ≠ wl then ⟨true, []⟩
    else loadLines rest (acc ++ [string_to_lower w]) wl

/-- `mrdle::InitWordListFile`, given the sequence of lines read from the
word file: run the loading loop from an empty store and `word_len = 0`;
on success sort the store (the early error return skips the sort). -/
def InitWordListFile (lines : List (List Char)) : LoadResult :=
  let r := loadLines lines [] 0
  if r.err then r else ⟨false, sortWords r.words⟩

/-- `mrdle::GetWordSize`: length of the first stored word, 0 if empty. -/
def GetWordSize : List (List Char) → Nat
  | [] => 0
  | w :: _ => w.length

/-- `mrdle::IsWordInList`: the source runs `std::lower_bound` plus an equality
check over the sorted store, which on a sorted list is exactly membership;
modelled as list membership. -/
def IsWordInList (words : List (List Char)) (word : List Char) : Bool :=
  words.contains word

/-- First pass of `mrdle::CheckWordGuess`:
`result[i] = (guess_word[i] == secret_word[i]) ? res_matched : res_unknown`. -/
def pass1 (secret guess : List Char) : List Char :=
  List.zipWith (fun g s => if g = s then res_matched else res_unknown) guess secret

/-- Index of the first occurrence of `c` in a char list, if any. -/
def findChar (c : Char) : List Char → Option Nat
  | [] => none
  | x :: xs => if x = c then some 0 else (findChar c xs).map (· + 1)

/-- `std::string::find(c, offset)`: index of the first occurrence of `c` at
position `offset` or later (`none` models `npos`). -/
def findFrom (s : List Char) (c : Char) (offset : Nat) : Option Nat :=
  (findChar c (s.drop offset)).map (· + offset)

/-- The inner `while (1)` loop of `CheckWordGuess`'s second pass: search the
secret for the guessed letter from `offset`; not found means `res_missing`;
an occurrence not already marked `res_matched` means `res_mislaid`; otherwise
skip past it and search again.  The loop is modelled with fuel, consumed only
when skipping; `res_unknown` marks (provably unreachable) fuel exhaustion. -/
def scanSecret (secret result : List Char) (c : Char) (offset fuel : Nat) : Char :=
  match findFrom secret c offset with
  | none => res_missing
  | some p =>
    if result.getD p res_unknown ≠ res_matched then res_mislaid
    else
      match fuel with
      | 0 => res_unknown
      | f + 1 => scanSecret secret result c (p + 1) f

/-- Second pass of `CheckWordGuess` (`for (i=0; i<n; ++i)`): skip positions
already decided, otherwise run the inner scan and store its code at `i`.
Fuel counts the remaining loop iterations (`n - i`). -/
def pass2 (secret guess result : List Char) (i fuel : Nat) : List Char :=
  match fuel with
  | 0 => result
  | f + 1 =>
    if i < secret.length then
      if result.getD i res_unknown ≠ res_unknown then
        pass2 secret guess result (i + 1) f
      else
        pass2 secret guess
          (result.set i (scanSecret secret result (guess.getD i res_unknown) 0 secret.length))
          (i + 1) f
    else result

/-- The feedback computed by `mrdle::CheckWordGuess` once the guess passed the
word-list check: resize to the secret's length and run both passes. -/
def checkWordGuessResult (secret guess : List Char) : List Char :=
  pass2 secret guess (pass1 secret guess) 0 secret.length

/-- `mrdle::CheckWordGuess` with its in/out `result` parameter made explicit:
returns the C++ return value paired with the final contents of `result`.
The source returns `false` before touching `result` when the guess is not in
the word list; otherwise `result` is resized and every position rewritten. -/
def CheckWordGuess (words : List (List Char)) (secret guess result : List Char) :
    Bool × List Char :=
  if IsWordInList words guess then (true, checkWordGuessResult secret guess)
  else (false, result)

/-- One iteration of the `for` loop of `mrdle::CheckWordAgainstHint`: the
`switch` on the hint's result code at position `i` (any other character falls
through to `default: break`, i.e. no constraint). -/
def hintPosOk (ws : Nat) (word hword hres : List Char) (i : Nat) : Bool :=
  if hres.getD i res_unknown = res_matched then
    word.getD i res_unknown == hword.getD i res_unknown
  else if hres.getD i res_unknown = res_missing then
    !(word.contains (hword.getD i res_unknown))
  else if hres.getD i res_unknown = res_mislaid then
    (word.getD i res_unknown != hword.getD i res_unknown) &&
    ((List.range ws).any fun c =>
      word.getD c res_unknown == hword.getD i res_unknown && c != i)
  else true

/-- `mrdle::CheckWordAgainstHint`: the word survives the hint iff every
position passes (the source's early `return false` is the failing `all`). -/
def CheckWordAgainstHint (ws : Nat) (word hword hres : List Char) : Bool :=
  (List.range ws).all (hintPosOk ws word hword hres)

/-- The string of valid result codes built at the top of `mrdle::ListWords`. -/
def res_chars : List Char := [res_matched, res_missing, res_mislaid]

/-- The hint validation of `mrdle::ListWords`: both components must have the
store's word size and the result string only valid result codes. -/
def validHint (ws : Nat) (hint : List Char × List Char) : Bool :=
  (hint.1.length == ws) && (hint.2.length == ws) &&
  hint.2.all fun c => res_chars.contains c

/-- `mrdle::ListWords`: validate all hints first, returning the error path
(exit code 1, printing the offending pair) at the first invalid hint; then
print exactly the stored words consistent with every hint (exit code 0).
`Except.error` carries the offending pair, `Except.ok` the surviving words. -/
def ListWords (words : List (List Char)) (hints : List (List Char × List Char)) :
    Except (List Char × List Char) (List (List Char)) :=
  match hints.find? (fun h => !validHint (GetWordSize words) h) with
  | some h => Except.error h
  | none =>
    Except.ok (words.filter fun w =>
      hints.all fun h => CheckWordAgainstHint (GetWordSize words) w h.1 h.2)

/-- Formalises the claims' description of pass 2: the secret contains an
occurrence of `c` at some position not claimed `Matched` by pass 1 (that is,
a position where the guess does not exactly match the secret). -/
def unmatchedOccurrence (secret guess : List Char) (c : Char) : Bool :=
  (List.range secret.length).any fun p =>
    secret.getD p res_unknown == c &&
    guess.getD p res_unknown != secret.getD p res_unknown

/-- Remove adjacent duplicates from a sorted list. -/
def dedupSorted : List (List Char) → List (List Char)
  | [] => []
  | [x] => [x]
  | x :: y :: rest =>
    if x = y then dedupSorted (y :: rest) else x :: dedupSorted (y :: rest)

/-- Follows the spec's words, for comparison with `InitWordListFile`: the
deduplicated, sorted ascending set of the trimmed, lower-cased non-empty
lines. -/
def specStore (lines : List (List Char)) : List (List Char) :=
  dedupSorted (sortWords
    ((lines.map fun l => string_to_lower (string_trim l)).filter fun w => !w.isEmpty))

/-! ## Helper lemmas: list access -/

theorem getD_set_self (r : List Char) (i : Nat) (v : Char) (h : i < r.length) :
    (r.set i v).getD i res_unknown = v := by
  rw [List.getD_eq_getElem _ _ (by simpa using h)]
  exact List.getElem_set_self (by simpa using h)

theorem getD_set_ne (r : List Char) (i j : Nat) (v : Char) (h : i ≠ j) :
    (r.set i v).getD j res_unknown = r.getD j res_unknown := by
  rw [List.getD_eq_getElem?_getD, List.getD_eq_getElem?_getD, List.getElem?_set_ne h]

theorem mem_iff_getD (l : List Char) (a : Char) :
    a ∈ l ↔ ∃ i, i < l.length ∧ l.getD i res_unknown = a := by
  rw [List.mem_iff_getElem]
  constructor
  · rintro ⟨n, h, rfl⟩
    exact ⟨n, h, List.getD_eq_getElem _ _ h⟩
  · rintro ⟨n, h, rfl⟩
    exact ⟨n, h, (List.getD_eq_getElem _ _ h).symm⟩

theorem contains_iff_mem (l : List Char) (a : Char) : l.contains a = true ↔ a ∈ l := by
  simp [List.contains, List.elem_iff]

theorem listContains_iff_mem (l : List (List Char)) (a : List Char) :
    l.contains a = true ↔ a ∈ l := by
  simp [List.contains, List.elem_iff]

/-! ## Helper lemmas: findChar and findFrom -/

theorem findChar_some (c : Char) :
    ∀ (l : List Char) (k : Nat), findChar c l = some k →
      k < l.length ∧ l.getD k res_unknown = c ∧
        ∀ j, j < k → l.getD j res_unknown ≠ c := by
  intro l
  induction l with
  | nil => intro k h; simp [findChar] at h
  | cons x xs ih =>
    intro k h
    by_cases hx : x = c
    · simp [findChar, hx] at h
      subst h
      exact ⟨Nat.succ_pos _, by simp [List.getD_cons_zero, hx], by omega⟩
    · simp [findChar, hx] at h
      obtain ⟨k', hk', rfl⟩ := h
      obtain ⟨h1, h2, h3⟩ := ih k' hk'
      refine ⟨by simpa using Nat.succ_lt_succ h1, by simpa [List.getD_cons_succ] using h2, ?_⟩
      intro j hj
      match j with
      | 0 => simpa [List.getD_cons_zero] using hx
      | j + 1 => simpa [List.getD_cons_succ] using h3 j (by omega)

theorem findChar_none (c : Char) :
    ∀ (l : List Char), findChar c l = none →
      ∀ j, j < l.length → l.getD j res_unknown ≠ c := by
  intro l
  induction l with
  | nil => intro _ j hj; simp at hj
  | cons x xs ih =>
    intro h j hj
    by_cases hx : x = c
    · simp [findChar, hx] at h
    · simp [findChar, hx] at h
      match j with
      | 0 => simpa [List.getD_cons_zero] using hx
      | j + 1 => exact (by simpa [List.getD_cons_succ] using ih h j (by simpa using hj))

theorem getD_drop (s : List Char) (o j : Nat) :
    (s.drop o).getD j res_unknown = s.getD (o + j) res_unknown := by
  rw [List.getD_eq_getElem?_getD, List.getD_eq_getElem?_getD, List.getElem?_drop]

theorem findFrom_some (s : List Char) (c : Char) (o p : Nat)
    (h : findFrom s c o = some p) :
    o ≤ p ∧ p < s.length ∧ s.getD p res_unknown = c ∧
      ∀ q, o ≤ q → q < p → s.getD q res_unknown ≠ c := by
  simp only [findFrom, Option.map_eq_some'] at h
  obtain ⟨k, hk, rfl⟩ := h
  obtain ⟨h1, h2, h3⟩ := findChar_some c _ k hk
  rw [List.length_drop] at h1
  refine ⟨by omega, by omega, ?_, ?_⟩
  · rw [getD_drop] at h2; rwa [Nat.add_comm o k] at h2
  · intro q hq1 hq2
    have := h3 (q - o) (by omega)
    rw [getD_drop] at this
    have hqo : o + (q - o) = q := by omega
    rwa [hqo] at this

theorem findFrom_none (s : List Char) (c : Char) (o : Nat)
    (h : findFrom s c o = none) :
    ∀ q, o ≤ q → q < s.length → s.getD q res_unknown ≠ c := by
  simp only [findFrom, Option.map_eq_none'] at h
  intro q hq1 hq2
  have := findChar_none c _ h (q - o) (by rw [List.length_drop]; omega)
  rw [getD_drop] at this
  have hqo : o + (q - o) = q := by omega
  rwa [hqo] at this

/-! ## Helper lemmas: the pass-2 scan loop -/

theorem scanSecret_none (secret r : List Char) (c : Char) (o fuel : Nat)
    (h : findFrom secret c o = none) :
    scanSecret secret r c o fuel = res_missing := by
  rw [scanSecret, h]

theorem scanSecret_found (secret r : List Char) (c : Char) (o fuel p : Nat)
    (h : findFrom secret c o = some p) (hm : r.getD p res_unknown ≠ res_matched) :
    scanSecret secret r c o fuel = res_mislaid := by
  rw [scanSecret, h]
  simp only []
  rw [if_pos hm]

theorem scanSecret_skip (secret r : List Char) (c : Char) (o f p : Nat)
    (h : findFrom secret c o = some p) (hm : r.getD p res_unknown = res_matched) :
    scanSecret secret r c o (f + 1) = scanSecret secret r c (p + 1) f := by
  rw [scanSecret, h]
  simp only []
  rw [if_neg (show ¬ r.getD p res_unknown ≠ res_matched from fun hn => hn hm)]

theorem pass2_stop (secret guess r : List Char) (i f : Nat) (hi : ¬ i < secret.length) :
    pass2 secret guess r i (f + 1) = r := by
  rw [pass2, if_neg hi]

theorem pass2_skip (secret guess r : List Char) (i f : Nat) (hi : i < secret.length)
    (hc : r.getD i res_unknown ≠ res_unknown) :
    pass2 secret guess r i (f + 1) = pass2 secret guess r (i + 1) f := by
  rw [pass2, if_pos hi, if_pos hc]

theorem pass2_scan (secret guess r : List Char) (i f : Nat) (hi : i < secret.length)
    (hc : r.getD i res_unknown = res_unknown) :
    pass2 secret guess r i (f + 1) =
      pass2 secret guess
        (r.set i (scanSecret secret r (guess.getD i res_unknown) 0 secret.length))
        (i + 1) f := by
  rw [pass2, if_pos hi, if_neg (show ¬ r.getD i res_unknown ≠ res_unknown from fun hn => hn hc)]

theorem scanSecret_cases (secret r : List Char) (c : Char) :
    ∀ fuel o, secret.length ≤ o + fuel →
      scanSecret secret r c o fuel = res_mislaid ∨
      scanSecret secret r c o fuel = res_missing := by
  intro fuel
  induction fuel with
  | zero =>
    intro o hf
    cases h : findFrom secret c o with
    | none => right; exact scanSecret_none secret r c o 0 h
    | some p =>
      obtain ⟨h1, h2, -, -⟩ := findFrom_some secret c o p h
      omega
  | succ f ih =>
    intro o hf
    cases h : findFrom secret c o with
    | none => right; exact scanSecret_none secret r c o (f + 1) h
    | some p =>
      obtain ⟨h1, h2, -, -⟩ := findFrom_some secret c o p h
      by_cases hm : r.getD p res_unknown = res_matched
      · rw [scanSecret_skip secret r c o f p h hm]
        exact ih (p + 1) (by omega)
      · left; exact scanSecret_found secret r c o (f + 1) p h hm

theorem scanSecret_mislaid_iff (secret r : List Char) (c : Char) :
    ∀ fuel o, secret.length ≤ o + fuel →
      (scanSecret secret r c o fuel = res_mislaid ↔
        ∃ p, o ≤ p ∧ p < secret.length ∧ secret.getD p res_unknown = c ∧
          r.getD p res_unknown ≠ res_matched) := by
  intro fuel
  induction fuel with
  | zero =>
    intro o hf
    have hnone : findFrom secret c o = none := by
      cases h : findFrom secret c o with
      | none => rfl
      | some p =>
        obtain ⟨h1, h2, -, -⟩ := findFrom_some secret c o p h
        omega
    rw [scanSecret_none secret r c o 0 hnone]
    constructor
    · intro hs; exact absurd hs (by decide)
    · rintro ⟨p, hp1, hp2, -, -⟩; omega
  | succ f ih =>
    intro o hf
    cases h : findFrom secret c o with
    | none =>
      rw [scanSecret_none secret r c o (f + 1) h]
      constructor
      · intro hs; exact absurd hs (by decide)
      · rintro ⟨p, hp1, hp2, hp3, -⟩
        exact absurd hp3 (findFrom_none secret c o h p hp1 hp2)
    | some p =>
      obtain ⟨h1, h2, h3, h4⟩ := findFrom_some secret c o p h
      by_cases hm : r.getD p res_unknown = res_matched
      · rw [scanSecret_skip secret r c o f p h hm, ih (p + 1) (by omega)]
        constructor
        · rintro ⟨q, hq1, hq2, hq3, hq4⟩
          exact ⟨q, by omega, hq2, hq3, hq4⟩
        · rintro ⟨q, hq1, hq2, hq3, hq4⟩
          refine ⟨q, ?_, hq2, hq3, hq4⟩
          by_cases hqp : q < p
          · exact absurd hq3 (h4 q hq1 hqp)
          · have hne : q ≠ p := fun he => hq4 (he ▸ hm)
            omega
      · rw [scanSecret_found secret r c o (f + 1) p h hm]
        exact ⟨fun _ => ⟨p, h1, h2, h3, hm⟩, fun _ => rfl⟩

/-! ## Helper lemmas: pass 1 -/

theorem pass1_length (secret guess : List Char) :
    (pass1 secret guess).length = min guess.length secret.length := by
  simp [pass1]

theorem pass1_getD (secret guess : List Char) (hlen : guess.length = secret.length)
    (j : Nat) (hj : j < secret.length) :
    (pass1 secret guess).getD j res_unknown =
      if guess.getD j res_unknown = secret.getD j res_unknown then res_matched
      else res_unknown := by
  have hl : j < (pass1 secret guess).length := by rw [pass1_length]; omega
  rw [List.getD_eq_getElem _ _ hl,
    List.getD_eq_getElem _ _ (show j < guess.length by omega),
    List.getD_eq_getElem _ _ hj]
  simp [pass1, List.getElem_zipWith]

theorem unmatchedOccurrence_iff (secret guess : List Char) (c : Char) :
    unmatchedOccurrence secret guess c = true ↔
      ∃ p, p < secret.length ∧ secret.getD p res_unknown = c ∧
        guess.getD p res_unknown ≠ secret.getD p res_unknown := by
  simp [unmatchedOccurrence, List.any_eq_true, List.mem_range]

/-! ## Helper lemmas: pass 2 -/

theorem pass2_length (secret guess : List Char) :
    ∀ fuel i r, (pass2 secret guess r i fuel).length = r.length := by
  intro fuel
  induction fuel with
  | zero => intro i r; rfl
  | succ f ih =>
    intro i r
    by_cases hi : i < secret.length
    · by_cases hc : r.getD i res_unknown = res_unknown
      · rw [pass2_scan secret guess r i f hi hc, ih, List.length_set]
      · rw [pass2_skip secret guess r i f hi hc]
        exact ih (i + 1) r
    · rw [pass2_stop secret guess r i f hi]

theorem pass2_getD (secret guess : List Char) :
    ∀ fuel i r, secret.length ≤ i + fuel → r.length = secret.length →
      (∀ p, p < secret.length →
        (r.getD p res_unknown = res_matched ↔
          guess.getD p res_unknown = secret.getD p res_unknown)) →
      ∀ j, j < secret.length →
        (pass2 secret guess r i fuel).getD j res_unknown =
          if j < i then r.getD j res_unknown
          else if r.getD j res_unknown ≠ res_unknown then r.getD j res_unknown
          else if unmatchedOccurrence secret guess (guess.getD j res_unknown) then res_mislaid
          else res_missing := by
  intro fuel
  induction fuel with
  | zero =>
    intro i r hf hlen hinv j hj
    rw [show pass2 secret guess r i 0 = r from rfl, if_pos (show j < i by omega)]
  | succ f ih =>
    intro i r hf hlen hinv j hj
    by_cases hi : i < secret.length
    swap
    · rw [pass2_stop secret guess r i f hi, if_pos (show j < i by omega)]
    by_cases hc : r.getD i res_unknown = res_unknown
    swap
    · -- skip branch: position i is already decided
      rw [pass2_skip secret guess r i f hi hc,
        ih (i + 1) r (by omega) hlen hinv j hj]
      by_cases hji : j < i
      · rw [if_pos (show j < i + 1 by omega), if_pos hji]
      by_cases hjeq : j = i
      · subst hjeq
        rw [if_pos (show j < j + 1 by omega), if_neg (show ¬ j < j by omega), if_pos hc]
      · rw [if_neg (show ¬ j < i + 1 by omega), if_neg hji]
    · -- scan branch: position i is still res_unknown
      have hvor := scanSecret_cases secret r (guess.getD i res_unknown) secret.length 0
        (by omega)
      have hviff := scanSecret_mislaid_iff secret r (guess.getD i res_unknown) secret.length 0
        (by omega)
      have hvite : scanSecret secret r (guess.getD i res_unknown) 0 secret.length =
          if unmatchedOccurrence secret guess (guess.getD i res_unknown) then res_mislaid
          else res_missing := by
        by_cases hu : unmatchedOccurrence secret guess (guess.getD i res_unknown) = true
        · rw [if_pos hu]
          apply hviff.mpr
          obtain ⟨p, hp1, hp2, hp3⟩ := (unmatchedOccurrence_iff secret guess _).mp hu
          exact ⟨p, Nat.zero_le p, hp1, hp2, fun hm => hp3 ((hinv p hp1).mp hm)⟩
        · rw [if_neg hu]
          rcases hvor with hm | hm
          · exfalso
            obtain ⟨p, -, hp2, hp3, hp4⟩ := hviff.mp hm
            exact hu ((unmatchedOccurrence_iff secret guess _).mpr
              ⟨p, hp2, hp3, fun he => hp4 ((hinv p hp2).mpr he)⟩)
          · exact hm
      have hinv2 : ∀ p, p < secret.length →
          ((r.set i (scanSecret secret r (guess.getD i res_unknown) 0
              secret.length)).getD p res_unknown = res_matched ↔
            guess.getD p res_unknown = secret.getD p res_unknown) := by
        intro p hp
        by_cases hpi : p = i
        · subst hpi
          rw [getD_set_self r p _ (by omega)]
          constructor
          · intro hm
            exfalso
            rcases hvor with h' | h' <;> rw [h'] at hm <;> exact absurd hm (by decide)
          · intro hg
            have := (hinv p hp).mpr hg
            rw [hc] at this
            exact absurd this (by decide)
        · rw [getD_set_ne r i p _ (fun he => hpi he.symm)]
          exact hinv p hp
      rw [pass2_scan secret guess r i f hi hc,
        ih (i + 1) _ (by omega) (by rw [List.length_set]; exact hlen) hinv2 j hj]
      by_cases hji : j < i
      · rw [if_pos (show j < i + 1 by omega), if_pos hji,
          getD_set_ne r i j _ (by omega)]
      by_cases hjeq : j = i
      · subst hjeq
        rw [if_pos (show j < j + 1 by omega), if_neg (show ¬ j < j by omega),
          getD_set_self r j _ (by omega), hvite,
          if_neg (show ¬ r.getD j res_unknown ≠ res_unknown from fun h => h hc)]
      · rw [if_neg (show ¬ j < i + 1 by omega), if_neg hji,
          getD_set_ne r i j _ (fun he => hjeq he.symm)]

/-! ## Helper lemmas: the full guess evaluation -/

theorem checkWordGuessResult_length (secret guess : List Char)
    (hlen : guess.length = secret.length) :
    (checkWordGuessResult secret guess).length = secret.length := by
  rw [checkWordGuessResult, pass2_length, pass1_length]
  omega

theorem checkWordGuessResult_getD (secret guess : List Char)
    (hlen : guess.length = secret.length) (j : Nat) (hj : j < secret.length) :
    (checkWordGuessResult secret guess).getD j res_unknown =
      if guess.getD j res_unknown = secret.getD j res_unknown then res_matched
      else if unmatchedOccurrence secret guess (guess.getD j res_unknown) then res_mislaid
      else res_missing := by
  have hinv : ∀ p, p < secret.length →
      ((pass1 secret guess).getD p res_unknown = res_matched ↔
        guess.getD p res_unknown = secret.getD p res_unknown) := by
    intro p hp
    rw [pass1_getD secret guess hlen p hp]
    by_cases hg : guess.getD p res_unknown = secret.getD p res_unknown
    · rw [if_pos hg]; exact iff_of_true rfl hg
    · rw [if_neg hg]; exact iff_of_false (by decide) hg
  rw [checkWordGuessResult,
    pass2_getD secret guess secret.length 0 (pass1 secret guess) (by omega)
      (by rw [pass1_length]; omega) hinv j hj,
    if_neg (show ¬ j < 0 by omega), pass1_getD secret guess hlen j hj]
  by_cases hg : guess.getD j res_unknown = secret.getD j res_unknown
  · rw [if_pos hg, if_pos hg, if_pos (show res_matched ≠ res_unknown by decide)]
  · rw [if_neg hg, if_neg hg,
      if_neg (show ¬ res_unknown ≠ res_unknown from fun h => h rfl)]

/-! ## Helper lemmas: the hint filter -/

theorem hintPosOk_iff (ws : Nat) (word hword hres : List Char) (i : Nat) :
    hintPosOk ws word hword hres i = true ↔
      ((hres.getD i res_unknown = res_matched →
          word.getD i res_unknown = hword.getD i res_unknown) ∧
       (hres.getD i res_unknown = res_missing →
          ¬ hword.getD i res_unknown ∈ word) ∧
       (hres.getD i res_unknown = res_mislaid →
          word.getD i res_unknown ≠ hword.getD i res_unknown ∧
          ∃ c, c < ws ∧ c ≠ i ∧
            word.getD c res_unknown = hword.getD i res_unknown)) := by
  by_cases h1 : hres.getD i res_unknown = res_matched
  · rw [hintPosOk, if_pos h1]
    simp only [beq_iff_eq]
    constructor
    · intro hb
      exact ⟨fun _ => hb, fun h2 => absurd (h1.symm.trans h2) (by decide),
        fun h2 => absurd (h1.symm.trans h2) (by decide)⟩
    · intro hr; exact hr.1 h1
  by_cases h2 : hres.getD i res_unknown = res_missing
  · rw [hintPosOk, if_neg h1, if_pos h2]
    simp only [Bool.not_eq_true']
    constructor
    · intro hb
      refine ⟨fun h' => absurd (h'.symm.trans h2) (by decide), fun _ hmem => ?_,
        fun h' => absurd (h'.symm.trans h2) (by decide)⟩
      rw [← contains_iff_mem] at hmem
      rw [hmem] at hb
      exact absurd hb (by decide)
    · intro hr
      cases hcont : word.contains (hword.getD i res_unknown) with
      | false => rfl
      | true => exact absurd ((contains_iff_mem _ _).mp hcont) (hr.2.1 h2)
  by_cases h3 : hres.getD i res_unknown = res_mislaid
  · rw [hintPosOk, if_neg h1, if_neg h2, if_pos h3]
    simp only [Bool.and_eq_true, bne_iff_ne, List.any_eq_true, List.mem_range,
      beq_iff_eq, ne_eq]
    constructor
    · rintro ⟨hne, c, hc, hcc, hci⟩
      exact ⟨fun h' => absurd (h'.symm.trans h3) (by decide),
        fun h' => absurd (h'.symm.trans h3) (by decide),
        fun _ => ⟨hne, c, hc, hci, hcc⟩⟩
    · intro hr
      obtain ⟨hne, c, hc, hci, hcc⟩ := hr.2.2 h3
      exact ⟨hne, c, hc, hcc, hci⟩
  · rw [hintPosOk, if_neg h1, if_neg h2, if_neg h3]
    constructor
    · intro _
      exact ⟨fun h' => absurd h' h1, fun h' => absurd h' h2, fun h' => absurd h' h3⟩
    · intro _; rfl

theorem checkWordAgainstHint_iff (ws : Nat) (word hword hres : List Char) :
    CheckWordAgainstHint ws word hword hres = true ↔
      ∀ i, i < ws → hintPosOk ws word hword hres i = true := by
  rw [CheckWordAgainstHint, List.all_eq_true]
  constructor
  · intro h i hi; exact h i (List.mem_range.mpr hi)
  · intro h i hi; exact h i (List.mem_range.mp hi)

/-! ## Helper lemmas: self evaluation -/

theorem pass1_self : ∀ w : List Char, pass1 w w = List.replicate w.length res_matched := by
  intro w
  induction w with
  | nil => rfl
  | cons x xs ih =>
    rw [List.length_cons, List.replicate_succ, ← ih]
    simp [pass1]

theorem pass2_of_no_unknown (secret guess : List Char) :
    ∀ fuel i r, (∀ j, j < secret.length → r.getD j res_unknown ≠ res_unknown) →
      pass2 secret guess r i fuel = r := by
  intro fuel
  induction fuel with
  | zero => intro i r _; rfl
  | succ f ih =>
    intro i r hr
    by_cases hi : i < secret.length
    · rw [pass2_skip secret guess r i f hi (hr i hi)]
      exact ih (i + 1) r hr
    · exact pass2_stop secret guess r i f hi

/-! ## Helper lemmas: lexicographic order and sorting -/

theorem strLe_nil (b : List Char) : strLe [] b = true := rfl

theorem strLe_cons_nil (a : Char) (as : List Char) : strLe (a :: as) [] = false := rfl

theorem strLe_cons (a b : Char) (as bs : List Char) :
    strLe (a :: as) (b :: bs) =
      if a < b then true else if b < a then false else strLe as bs := rfl

theorem strLe_total : ∀ a b : List Char, strLe a b = true ∨ strLe b a = true := by
  intro a
  induction a with
  | nil => intro b; left; rfl
  | cons x xs ih =>
    intro b
    cases b with
    | nil => right; rfl
    | cons y ys =>
      rw [strLe_cons, strLe_cons]
      by_cases hxy : x < y
      · left; rw [if_pos hxy]
      by_cases hyx : y < x
      · right; rw [if_pos hyx]
      · rcases ih ys with h | h
        · left; rw [if_neg hxy, if_neg hyx]; exact h
        · right; rw [if_neg hyx, if_neg hxy]; exact h

theorem strLe_trans : ∀ a b c : List Char,
    strLe a b = true → strLe b c = true → strLe a c = true := by
  intro a
  induction a with
  | nil => intro b c _ _; rfl
  | cons x xs ih =>
    intro b c hab hbc
    cases b with
    | nil => rw [strLe_cons_nil] at hab; exact absurd hab (by decide)
    | cons y ys =>
      cases c with
      | nil => rw [strLe_cons_nil] at hbc; exact absurd hbc (by decide)
      | cons z zs =>
        rw [strLe_cons] at hab hbc ⊢
        by_cases hxy : x < y
        · by_cases hyz : y < z
          · rw [if_pos (lt_trans hxy hyz)]
          · rw [if_neg hyz] at hbc
            by_cases hzy : z < y
            · rw [if_pos hzy] at hbc; exact absurd hbc (by decide)
            · have hyeq : y = z := le_antisymm (le_of_not_lt hzy) (le_of_not_lt hyz)
              rw [if_pos (hyeq ▸ hxy)]
        · rw [if_neg hxy] at hab
          by_cases hyx : y < x
          · rw [if_pos hyx] at hab; exact absurd hab (by decide)
          · rw [if_neg hyx] at hab
            have hxeq : x = y := le_antisymm (le_of_not_lt hyx) (le_of_not_lt hxy)
            subst hxeq
            by_cases hxz : x < z
            · rw [if_pos hxz]
            · rw [if_neg hxz] at hbc ⊢
              by_cases hzx : z < x
              · rw [if_pos hzx] at hbc; exact absurd hbc (by decide)
              · rw [if_neg hzx] at hbc ⊢
                exact ih ys zs hab hbc

theorem insertSorted_perm (w : List Char) :
    ∀ l : List (List Char), (insertSorted w l).Perm (w :: l) := by
  intro l
  induction l with
  | nil => exact List.Perm.refl _
  | cons x xs ih =>
    rw [insertSorted]
    by_cases h : strLe w x = true
    · rw [if_pos h]
    · rw [if_neg h]
      exact (ih.cons x).trans (List.Perm.swap w x xs)

theorem sortWords_perm : ∀ l : List (List Char), (sortWords l).Perm l := by
  intro l
  induction l with
  | nil => exact List.Perm.refl _
  | cons x xs ih =>
    rw [sortWords]
    exact (insertSorted_perm x (sortWords xs)).trans (ih.cons x)

theorem insertSorted_sorted (w : List Char) :
    ∀ l : List (List Char), l.Pairwise (fun a b => strLe a b = true) →
      (insertSorted w l).Pairwise (fun a b => strLe a b = true) := by
  intro l
  induction l with
  | nil => intro _; simp [insertSorted]
  | cons x xs ih =>
    intro hp
    rw [List.pairwise_cons] at hp
    obtain ⟨hx, hxs⟩ := hp
    rw [insertSorted]
    by_cases h : strLe w x = true
    · rw [if_pos h, List.pairwise_cons]
      refine ⟨?_, List.pairwise_cons.mpr ⟨hx, hxs⟩⟩
      intro a ha
      rcases List.mem_cons.mp ha with rfl | notused
      · exact h
      · exact strLe_trans w x a h (hx a notused)
    · rw [if_neg h, List.pairwise_cons]
      have hxw : strLe x w = true := (strLe_total w x).resolve_left h
      refine ⟨?_, ih hxs⟩
      intro a ha
      rcases List.mem_cons.mp ((insertSorted_perm w xs).mem_iff.mp ha) with rfl | ha'
      · exact hxw
      · exact hx a ha'

theorem sortWords_sorted : ∀ l : List (List Char),
    (sortWords l).Pairwise (fun a b => strLe a b = true) := by
  intro l
  induction l with
  | nil => simp [sortWords]
  | cons x xs ih =>
    rw [sortWords]
    exact insertSorted_sorted x (sortWords xs) ih

/-! ## Helper lemmas: word-list loading -/

theorem loadLines_cons (line : List Char) (rest acc : List (List Char)) (wl : Nat) :
    loadLines (line :: rest) acc wl =
      if (string_trim line).length ≠ (if wl = 0 then (string_trim line).length else wl)
      then ⟨true, []⟩
      else loadLines rest (acc ++ [string_to_lower (string_trim line)])
        (if wl = 0 then (string_trim line).length else wl) := rfl

theorem loadLines_err : ∀ (lines acc : List (List Char)) (wl : Nat),
    ((wl ≠ 0 ∧ ∃ d, d ∈ lines ∧ string_trim d ≠ [] ∧ (string_trim d).length ≠ wl) ∨
     (wl = 0 ∧ ∃ a, a ∈ lines ∧ ∃ b, b ∈ lines ∧ string_trim a ≠ [] ∧
       string_trim b ≠ [] ∧ (string_trim a).length ≠ (string_trim b).length)) →
    loadLines lines acc wl = ⟨true, []⟩ := by
  intro lines
  induction lines with
  | nil =>
    intro acc wl h
    rcases h with ⟨-, d, hd, -⟩ | ⟨-, a, ha, -⟩
    · exact absurd hd (List.not_mem_nil d)
    · exact absurd ha (List.not_mem_nil a)
  | cons line rest ih =>
    intro acc wl h
    rcases h with ⟨hwl, d, hd, hdne, hdlen⟩ | ⟨hwl0, a, ha, b, hb, hane, hbne, hablen⟩
    · -- a word length is already established and some line violates it
      have hwl' : (if wl = 0 then (string_trim line).length else wl) = wl := if_neg hwl
      rw [loadLines_cons, hwl']
      by_cases hmis : (string_trim line).length ≠ wl
      · rw [if_pos hmis]
      · rw [if_neg hmis]
        rcases List.mem_cons.mp hd with rfl | hdr
        · exact absurd hdlen hmis
        · exact ih _ wl (Or.inl ⟨hwl, d, hdr, hdne, hdlen⟩)
    · -- no word length yet; two non-empty lines of different lengths follow
      subst hwl0
      have hwl' : (if (0 : Nat) = 0 then (string_trim line).length else 0) =
          (string_trim line).length := if_pos rfl
      rw [loadLines_cons, hwl',
        if_neg (show ¬ (string_trim line).length ≠ (string_trim line).length
          from fun hn => hn rfl)]
      by_cases ht : string_trim line = []
      · -- an empty first line leaves word_len at 0
        have harest : a ∈ rest := by
          rcases List.mem_cons.mp ha with rfl | h'
          · exact absurd ht hane
          · exact h'
        have hbrest : b ∈ rest := by
          rcases List.mem_cons.mp hb with rfl | h'
          · exact absurd ht hbne
          · exact h'
        rw [ht]
        exact ih _ _ (Or.inr ⟨rfl, a, harest, b, hbrest, hane, hbne, hablen⟩)
      · -- a non-empty first line establishes a non-zero word length
        have htl : (string_trim line).length ≠ 0 :=
          fun h0 => ht (List.length_eq_zero.mp h0)
        by_cases hta : (string_trim a).length = (string_trim line).length
        · have hbrest : b ∈ rest := by
            rcases List.mem_cons.mp hb with rfl | h'
            · exact absurd (hta.symm.trans rfl) (fun he => hablen he.symm)
            · exact h'
          exact ih _ _ (Or.inl ⟨htl, b, hbrest, hbne, fun he => hablen (hta.trans he.symm)⟩)
        · have harest : a ∈ rest := by
            rcases List.mem_cons.mp ha with rfl | h'
            · exact absurd rfl hta
            · exact h'
          exact ih _ _ (Or.inl ⟨htl, a, harest, hane, hta⟩)

theorem loadLines_ok : ∀ (lines acc : List (List Char)) (wl : Nat),
    (loadLines lines acc wl).err = false →
    (loadLines lines acc wl).words =
      acc ++ lines.map fun l => string_to_lower (string_trim l) := by
  intro lines
  induction lines with
  | nil => intro acc wl _; simp [loadLines]
  | cons line rest ih =>
    intro acc wl herr
    rw [loadLines_cons] at herr ⊢
    by_cases hmis : (string_trim line).length ≠
        (if wl = 0 then (string_trim line).length else wl)
    · rw [if_pos hmis] at herr
      exact absurd herr (by decide)
    · rw [if_neg hmis] at herr ⊢
      rw [ih _ _ herr, List.map_cons, List.append_assoc, List.singleton_append]

/-! ## Helper lemmas: hint validation -/

theorem validHint_iff (ws : Nat) (hint : List Char × List Char) :
    validHint ws hint = true ↔
      (hint.1.length = ws ∧ hint.2.length = ws ∧
        ∀ ch, ch ∈ hint.2 → ch ∈ res_chars) := by
  rw [validHint]
  simp only [Bool.and_eq_true, beq_iff_eq, List.all_eq_true]
  constructor
  · rintro ⟨⟨h1, h2⟩, h3⟩
    exact ⟨h1, h2, fun ch hch => (contains_iff_mem _ _).mp (h3 ch hch)⟩
  · rintro ⟨h1, h2, h3⟩
    exact ⟨⟨h1, h2⟩, fun ch hch => (contains_iff_mem _ _).mpr (h3 ch hch)⟩

/-! ## Claim theorems -/

/-- C1: for every secret and guess of equal length, the feedback computed by
CheckWordGuess follows the two-pass algorithm: position i is Matched exactly
when guess[i] = secret[i]; otherwise it is Misplaced exactly when the secret
has an occurrence of guess[i] at a position not claimed Matched by pass 1, and
Absent otherwise; the feedback has length L and contains no Unprocessed code. -/
theorem checkWordGuess_twoPass (secret guess : List Char)
    (hlen : guess.length = secret.length) :
    (checkWordGuessResult secret guess).length = secret.length ∧
    (∀ i, i < secret.length →
      (checkWordGuessResult secret guess).getD i res_unknown =
        (if guess.getD i res_unknown = secret.getD i res_unknown then res_matched
         else if unmatchedOccurrence secret guess (guess.getD i res_unknown) = true
           then res_mislaid
         else res_missing)) ∧
    ¬ res_unknown ∈ checkWordGuessResult secret guess := by
  refine ⟨checkWordGuessResult_length secret guess hlen,
    fun i hi => checkWordGuessResult_getD secret guess hlen i hi, ?_⟩
  rw [mem_iff_getD]
  rintro ⟨i, hi, hgd⟩
  rw [checkWordGuessResult_length secret guess hlen] at hi
  rw [checkWordGuessResult_getD secret guess hlen i hi] at hgd
  by_cases hg : guess.getD i res_unknown = secret.getD i res_unknown
  · rw [if_pos hg] at hgd; exact absurd hgd (by decide)
  · rw [if_neg hg] at hgd
    by_cases hu : unmatchedOccurrence secret guess (guess.getD i res_unknown) = true
    · rw [if_pos hu] at hgd; exact absurd hgd (by decide)
    · rw [if_neg hu] at hgd; exact absurd hgd (by decide)

/-- Witness for C1 at secret "abca", guess "aabb". -/
theorem checkWordGuess_twoPass_witness :
    ("aabb".toList.length = "abca".toList.length) ∧
    ((checkWordGuessResult "abca".toList "aabb".toList).length =
        "abca".toList.length ∧
     (∀ i, i < "abca".toList.length →
       (checkWordGuessResult "abca".toList "aabb".toList).getD i res_unknown =
         (if "aabb".toList.getD i res_unknown = "abca".toList.getD i res_unknown
            then res_matched
          else if unmatchedOccurrence "abca".toList "aabb".toList
              ("aabb".toList.getD i res_unknown) = true then res_mislaid
          else res_missing)) ∧
     ¬ res_unknown ∈ checkWordGuessResult "abca".toList "aabb".toList) :=
  ⟨by decide, checkWordGuess_twoPass "abca".toList "aabb".toList (by decide)⟩

/-- C2: CheckWordAgainstHint accepts a candidate exactly when every position
obeys its code: Matched forces equality at that position, Absent forbids the
letter anywhere in the candidate, Misplaced forbids it at that position but
requires it at some other position. -/
theorem checkWordAgainstHint_characterization (L : Nat) (word hword hres : List Char)
    (_hw : word.length = L) (_hh : hword.length = L) (_hr : hres.length = L) :
    (CheckWordAgainstHint L word hword hres = true ↔
      ∀ i, i < L →
        ((hres.getD i res_unknown = res_matched →
            word.getD i res_unknown = hword.getD i res_unknown) ∧
         (hres.getD i res_unknown = res_missing →
            ¬ hword.getD i res_unknown ∈ word) ∧
         (hres.getD i res_unknown = res_mislaid →
            word.getD i res_unknown ≠ hword.getD i res_unknown ∧
            ∃ c, c < L ∧ c ≠ i ∧
              word.getD c res_unknown = hword.getD i res_unknown))) := by
  rw [checkWordAgainstHint_iff]
  constructor
  · intro hA i hi; exact (hintPosOk_iff L word hword hres i).mp (hA i hi)
  · intro hA i hi; exact (hintPosOk_iff L word hword hres i).mpr (hA i hi)

/-- Witness for C2 at candidate "ab", hint ("ba", "~~"). -/
theorem checkWordAgainstHint_characterization_witness :
    ("ab".toList.length = 2 ∧ "ba".toList.length = 2 ∧
      (['~', '~'] : List Char).length = 2) ∧
    (CheckWordAgainstHint 2 "ab".toList "ba".toList ['~', '~'] = true ↔
      ∀ i, i < 2 →
        (((['~', '~'] : List Char).getD i res_unknown = res_matched →
            "ab".toList.getD i res_unknown = "ba".toList.getD i res_unknown) ∧
         ((['~', '~'] : List Char).getD i res_unknown = res_missing →
            ¬ "ba".toList.getD i res_unknown ∈ "ab".toList) ∧
         ((['~', '~'] : List Char).getD i res_unknown = res_mislaid →
            "ab".toList.getD i res_unknown ≠ "ba".toList.getD i res_unknown ∧
            ∃ c, c < 2 ∧ c ≠ i ∧
              "ab".toList.getD c res_unknown = "ba".toList.getD i res_unknown))) :=
  ⟨⟨by decide, by decide, by decide⟩,
    checkWordAgainstHint_characterization 2 "ab".toList "ba".toList ['~', '~']
      (by decide) (by decide) (by decide)⟩

/-- C3 counterexample: secret "ab", guess "aa" evaluates to "!x", yet the
secret itself is rejected by the hint derived from that very evaluation: the
Absent rule at position 1 sees the 'a' the secret does contain (at the matched
position 0), so the true secret is filtered out. -/
theorem hintSelfConsistency_cex :
    checkWordGuessResult "ab".toList "aa".toList = [res_matched, res_missing] ∧
    CheckWordAgainstHint 2 "ab".toList "aa".toList
      (checkWordGuessResult "ab".toList "aa".toList) = false := by decide

/-- C3 amended: for every (secret, guess) pair of equal length in which the
guess has no repeated letter, the secret is consistent with the hint formed
from the guess and the feedback CheckWordGuess computes for it. -/
theorem hintSelfConsistency_nodupGuess (secret guess : List Char)
    (hlen : guess.length = secret.length) (hnd : guess.Nodup) :
    CheckWordAgainstHint secret.length secret guess
      (checkWordGuessResult secret guess) = true := by
  rw [checkWordAgainstHint_iff]
  intro i hi
  rw [hintPosOk_iff, checkWordGuessResult_getD secret guess hlen i hi]
  by_cases hg : guess.getD i res_unknown = secret.getD i res_unknown
  · rw [if_pos hg]
    exact ⟨fun _ => hg.symm, fun h2 => absurd h2 (by decide),
      fun h3 => absurd h3 (by decide)⟩
  · rw [if_neg hg]
    by_cases hu : unmatchedOccurrence secret guess (guess.getD i res_unknown) = true
    · rw [if_pos hu]
      refine ⟨fun h1 => absurd h1 (by decide), fun h2 => absurd h2 (by decide),
        fun _ => ?_⟩
      obtain ⟨p, hp, hsp, hgp⟩ := (unmatchedOccurrence_iff secret guess _).mp hu
      refine ⟨fun he => hg he.symm, p, hp, ?_, hsp⟩
      intro hpi
      subst hpi
      exact hg hsp.symm
    · rw [if_neg hu]
      refine ⟨fun h1 => absurd h1 (by decide), fun _ hmem => ?_,
        fun h3 => absurd h3 (by decide)⟩
      obtain ⟨p, hp, hsp⟩ := (mem_iff_getD secret _).mp hmem
      by_cases hgp : guess.getD p res_unknown = secret.getD p res_unknown
      · have hpi : p ≠ i := fun he => hg ((he ▸ hsp).symm)
        have hgg : guess.getD p res_unknown = guess.getD i res_unknown :=
          hgp.trans hsp
        have hpg : p < guess.length := by omega
        have hig : i < guess.length := by omega
        rw [List.getD_eq_getElem _ _ hpg, List.getD_eq_getElem _ _ hig] at hgg
        exact hpi ((List.Nodup.getElem_inj_iff hnd).mp hgg)
      · exact hu ((unmatchedOccurrence_iff secret guess _).mpr ⟨p, hp, hsp, hgp⟩)

/-- Witness for the amended C3 at secret "ab", guess "ba". -/
theorem hintSelfConsistency_nodupGuess_witness :
    ("ba".toList.length = "ab".toList.length ∧ "ba".toList.Nodup) ∧
    CheckWordAgainstHint "ab".toList.length "ab".toList "ba".toList
      (checkWordGuessResult "ab".toList "ba".toList) = true :=
  ⟨⟨by decide, by decide⟩,
    hintSelfConsistency_nodupGuess "ab".toList "ba".toList (by decide) (by decide)⟩

/-- C4 counterexample: secret "abc", guess "caa".  The letter 'a' appears at
guess positions 1 and 2 (neither an exact match) and exactly once in the
secret, at position 0 (not an exact match).  The claim demands Misplaced at
position 1 and Absent at position 2; the code yields Misplaced at both (the
evaluation is "~~~", and position 2 is not Absent). -/
theorem duplicateLetter_cex :
    checkWordGuessResult "abc".toList "caa".toList =
      [res_mislaid, res_mislaid, res_mislaid] ∧
    ¬ (checkWordGuessResult "abc".toList "caa".toList).getD 2 res_unknown =
        res_missing := by decide

/-- C4 amended: if a letter occupies two guess positions that are not exact
matches and the secret contains that letter at a position that is not an exact
match, then the feedback is Misplaced at BOTH guess positions: pass 2 rescans
the whole secret for every guess position and never consumes occurrences, so
no Absent is produced for the duplicate. -/
theorem duplicateLetter_bothMisplaced (secret guess : List Char)
    (hlen : guess.length = secret.length) (i1 i2 p : Nat)
    (h1 : i1 < secret.length) (h2 : i2 < secret.length)
    (hg1 : guess.getD i1 res_unknown ≠ secret.getD i1 res_unknown)
    (hg2 : guess.getD i2 res_unknown ≠ secret.getD i2 res_unknown)
    (hdup : guess.getD i1 res_unknown = guess.getD i2 res_unknown)
    (hp : p < secret.length)
    (hsp : secret.getD p res_unknown = guess.getD i1 res_unknown)
    (hgp : guess.getD p res_unknown ≠ secret.getD p res_unknown) :
    (checkWordGuessResult secret guess).getD i1 res_unknown = res_mislaid ∧
    (checkWordGuessResult secret guess).getD i2 res_unknown = res_mislaid := by
  have hu1 : unmatchedOccurrence secret guess (guess.getD i1 res_unknown) = true :=
    (unmatchedOccurrence_iff secret guess _).mpr ⟨p, hp, hsp, hgp⟩
  have hu2 : unmatchedOccurrence secret guess (guess.getD i2 res_unknown) = true := by
    rw [← hdup]; exact hu1
  constructor
  · rw [checkWordGuessResult_getD secret guess hlen i1 h1, if_neg hg1, if_pos hu1]
  · rw [checkWordGuessResult_getD secret guess hlen i2 h2, if_neg hg2, if_pos hu2]

/-- Witness for the amended C4 at secret "abc", guess "caa", positions 1 and 2,
secret occurrence at position 0. -/
theorem duplicateLetter_bothMisplaced_witness :
    ("caa".toList.length = "abc".toList.length ∧
     1 < "abc".toList.length ∧ 2 < "abc".toList.length ∧
     "caa".toList.getD 1 res_unknown ≠ "abc".toList.getD 1 res_unknown ∧
     "caa".toList.getD 2 res_unknown ≠ "abc".toList.getD 2 res_unknown ∧
     "caa".toList.getD 1 res_unknown = "caa".toList.getD 2 res_unknown ∧
     0 < "abc".toList.length ∧
     "abc".toList.getD 0 res_unknown = "caa".toList.getD 1 res_unknown ∧
     "caa".toList.getD 0 res_unknown ≠ "abc".toList.getD 0 res_unknown) ∧
    ((checkWordGuessResult "abc".toList "caa".toList).getD 1 res_unknown =
        res_mislaid ∧
     (checkWordGuessResult "abc".toList "caa".toList).getD 2 res_unknown =
        res_mislaid) :=
  ⟨by decide,
    duplicateLetter_bothMisplaced "abc".toList "caa".toList (by decide) 1 2 0
      (by decide) (by decide) (by decide) (by decide) (by decide) (by decide)
      (by decide) (by decide)⟩

/-- C5 counterexample: evaluating guess "aabb" against secret "abca" yields
"!~~~", not the claimed "!~xx": contrary to the spec's arithmetic, the secret
"abca" does contain a 'b' (at position 1), and pass 2 marks both 'b' positions
Misplaced. -/
theorem evaluate_abca_aabb_cex :
    checkWordGuessResult "abca".toList "aabb".toList =
      [res_matched, res_mislaid, res_mislaid, res_mislaid] ∧
    ¬ checkWordGuessResult "abca".toList "aabb".toList =
        [res_matched, res_mislaid, res_missing, res_missing] := by decide

/-- C5 amended: evaluating guess "aabb" against secret "abca" yields the
feedback [Matched, Misplaced, Misplaced, Misplaced] (encoded "!~~~"): position
0 is an exact 'a' match, position 1's 'a' is misplaced (secret position 3),
and both 'b's are misplaced because the secret's unmatched 'b' at position 1
is found by each scan (pass 2 does not consume occurrences). -/
theorem evaluate_abca_aabb :
    checkWordGuessResult "abca".toList "aabb".toList =
      [res_matched, res_mislaid, res_mislaid, res_mislaid] := by decide

/-- C6: if any supplied hint has a component whose length differs from the
store's word size, or a feedback character outside the three valid codes,
ListWords fails with an invalid-hint error carrying an offending pair, and no
surviving-candidate list is produced at all. -/
theorem listWords_invalidHint (words : List (List Char))
    (hints : List (List Char × List Char))
    (h : ∃ hint, hint ∈ hints ∧
      (hint.1.length ≠ GetWordSize words ∨ hint.2.length ≠ GetWordSize words ∨
        ∃ ch, ch ∈ hint.2 ∧ ¬ ch ∈ res_chars)) :
    ∃ hint, hint ∈ hints ∧
      (hint.1.length ≠ GetWordSize words ∨ hint.2.length ≠ GetWordSize words ∨
        ∃ ch, ch ∈ hint.2 ∧ ¬ ch ∈ res_chars) ∧
      ListWords words hints = Except.error hint ∧
      ∀ out, ¬ ListWords words hints = Except.ok out := by
  obtain ⟨hint0, hmem0, hbad0⟩ := h
  have hbad_of_not : ∀ hint : List Char × List Char,
      ¬ validHint (GetWordSize words) hint = true →
      (hint.1.length ≠ GetWordSize words ∨ hint.2.length ≠ GetWordSize words ∨
        ∃ ch, ch ∈ hint.2 ∧ ¬ ch ∈ res_chars) := by
    intro hint hv
    by_contra hnb
    push_neg at hnb
    exact hv ((validHint_iff _ _).mpr ⟨hnb.1, hnb.2.1, hnb.2.2⟩)
  have hnot0 : ¬ validHint (GetWordSize words) hint0 = true := by
    intro hv
    obtain ⟨hl1, hl2, hall⟩ := (validHint_iff _ _).mp hv
    rcases hbad0 with hb | hb | ⟨ch, hch, hchn⟩
    · exact hb hl1
    · exact hb hl2
    · exact hchn (hall ch hch)
  have hp0 : (!validHint (GetWordSize words) hint0) = true := by
    cases hb : validHint (GetWordSize words) hint0 with
    | false => rfl
    | true => exact absurd hb hnot0
  cases hfind : hints.find? (fun hnt => !validHint (GetWordSize words) hnt) with
  | none => exact absurd hp0 (List.find?_eq_none.mp hfind hint0 hmem0)
  | some hint1 =>
    have hp1 : (!validHint (GetWordSize words) hint1) = true :=
      @List.find?_some _ (fun hnt => !validHint (GetWordSize words) hnt) hint1 hints hfind
    have hnot1 : ¬ validHint (GetWordSize words) hint1 = true := by
      intro hv
      rw [hv] at hp1
      exact absurd hp1 (by decide)
    have hmem1 : hint1 ∈ hints := List.mem_of_find?_eq_some hfind
    have heq : ListWords words hints = Except.error hint1 := by
      rw [ListWords, hfind]
    refine ⟨hint1, hmem1, hbad_of_not hint1 hnot1, heq, ?_⟩
    intro out hcon
    rw [heq] at hcon
    exact Except.noConfusion hcon

/-- Witness for C6: a hint with the feedback character '?' aborts ListWords. -/
theorem listWords_invalidHint_witness :
    (∃ hint, hint ∈ [((['a', 'b'] : List Char), (['!', '?'] : List Char))] ∧
      (hint.1.length ≠ GetWordSize [['a', 'b']] ∨
       hint.2.length ≠ GetWordSize [['a', 'b']] ∨
       ∃ ch, ch ∈ hint.2 ∧ ¬ ch ∈ res_chars)) ∧
    (∃ hint, hint ∈ [((['a', 'b'] : List Char), (['!', '?'] : List Char))] ∧
      (hint.1.length ≠ GetWordSize [['a', 'b']] ∨
       hint.2.length ≠ GetWordSize [['a', 'b']] ∨
       ∃ ch, ch ∈ hint.2 ∧ ¬ ch ∈ res_chars) ∧
      ListWords [['a', 'b']] [((['a', 'b'] : List Char), (['!', '?'] : List Char))] =
        Except.error hint ∧
      ∀ out, ¬ ListWords [['a', 'b']]
        [((['a', 'b'] : List Char), (['!', '?'] : List Char))] = Except.ok out) := by
  have hexp : ∃ hint, hint ∈ [((['a', 'b'] : List Char), (['!', '?'] : List Char))] ∧
      (hint.1.length ≠ GetWordSize [['a', 'b']] ∨
       hint.2.length ≠ GetWordSize [['a', 'b']] ∨
       ∃ ch, ch ∈ hint.2 ∧ ¬ ch ∈ res_chars) :=
    ⟨(['a', 'b'], ['!', '?']), by decide,
      Or.inr (Or.inr ⟨'?', by decide, by decide⟩)⟩
  exact ⟨hexp, listWords_invalidHint [['a', 'b']]
    [((['a', 'b'] : List Char), (['!', '?'] : List Char))] hexp⟩

/-- C7: if the source contains two non-empty lines of different post-trim
lengths, loading fails with the inconsistent-length error and the store is
left empty. -/
theorem initWordListFile_inconsistent (lines : List (List Char))
    (h : ∃ a, a ∈ lines ∧ ∃ b, b ∈ lines ∧ string_trim a ≠ [] ∧
      string_trim b ≠ [] ∧ (string_trim a).length ≠ (string_trim b).length) :
    (InitWordListFile lines).err = true ∧ (InitWordListFile lines).words = [] := by
  have hl : loadLines lines [] 0 = ⟨true, []⟩ :=
    loadLines_err lines [] 0 (Or.inr ⟨rfl, h⟩)
  refine ⟨?_, ?_⟩ <;> (rw [InitWordListFile, hl]; rfl)

/-- Witness for C7 at the lines ["a", "ab"]. -/
theorem initWordListFile_inconsistent_witness :
    (∃ a, a ∈ [(['a'] : List Char), ['a', 'b']] ∧
      ∃ b, b ∈ [(['a'] : List Char), ['a', 'b']] ∧ string_trim a ≠ [] ∧
        string_trim b ≠ [] ∧ (string_trim a).length ≠ (string_trim b).length) ∧
    ((InitWordListFile [['a'], ['a', 'b']]).err = true ∧
     (InitWordListFile [['a'], ['a', 'b']]).words = []) := by
  have hexp : ∃ a, a ∈ [(['a'] : List Char), ['a', 'b']] ∧
      ∃ b, b ∈ [(['a'] : List Char), ['a', 'b']] ∧ string_trim a ≠ [] ∧
        string_trim b ≠ [] ∧ (string_trim a).length ≠ (string_trim b).length :=
    ⟨['a'], by decide, ['a', 'b'], by decide, by decide, by decide, by decide⟩
  exact ⟨hexp, initWordListFile_inconsistent [['a'], ['a', 'b']] hexp⟩

/-- C8 counterexample: loading the lines ["", "a", "a"] succeeds, yet the
store is ["", "a", "a"]: the leading empty line became an entry and the
duplicate "a" was kept, while the deduplicated sorted set of the non-empty
lines described by the spec would be ["a"]. -/
theorem initWordListFile_cex :
    (InitWordListFile [[], ['a'], ['a']]).err = false ∧
    (InitWordListFile [[], ['a'], ['a']]).words = [[], ['a'], ['a']] ∧
    specStore [[], ['a'], ['a']] = [['a']] ∧
    ¬ (InitWordListFile [[], ['a'], ['a']]).words =
        specStore [[], ['a'], ['a']] := by decide

/-- C8 amended: when loading succeeds, the store holds every trimmed,
lower-cased line of the source — duplicates and empty lines included, with
no deduplication and no skipping — arranged in sorted ascending order. -/
theorem initWordListFile_success (lines : List (List Char))
    (h : (InitWordListFile lines).err = false) :
    (InitWordListFile lines).words.Perm
        (lines.map fun l => string_to_lower (string_trim l)) ∧
    (InitWordListFile lines).words.Pairwise (fun a b => strLe a b = true) := by
  by_cases herr : (loadLines lines [] 0).err = true
  · have hIW : InitWordListFile lines = loadLines lines [] 0 := by
      simp only [InitWordListFile]
      rw [if_pos herr]
    rw [hIW] at h
    rw [h] at herr
    exact absurd herr (by decide)
  · have herrf : (loadLines lines [] 0).err = false := by
      cases he : (loadLines lines [] 0).err with
      | false => rfl
      | true => exact absurd he herr
    have hIW : InitWordListFile lines =
        ⟨false, sortWords (loadLines lines [] 0).words⟩ := by
      simp only [InitWordListFile]
      rw [if_neg herr]
    have hwords := loadLines_ok lines [] 0 herrf
    rw [List.nil_append] at hwords
    rw [hIW]
    constructor
    · show (sortWords ((loadLines lines [] 0).words)).Perm _
      have hperm := sortWords_perm (loadLines lines [] 0).words
      rw [hwords] at hperm
      rw [hwords]
      exact hperm
    · show (sortWords ((loadLines lines [] 0).words)).Pairwise _
      exact sortWords_sorted _

/-- Witness for the amended C8 at the lines ["b", "a"]. -/
theorem initWordListFile_success_witness :
    ((InitWordListFile [(['b'] : List Char), ['a']]).err = false) ∧
    ((InitWordListFile [(['b'] : List Char), ['a']]).words.Perm
        ([(['b'] : List Char), ['a']].map fun l => string_to_lower (string_trim l)) ∧
     (InitWordListFile [(['b'] : List Char), ['a']]).words.Pairwise
        (fun a b => strLe a b = true)) :=
  ⟨by decide, initWordListFile_success [['b'], ['a']] (by decide)⟩

/-- C9: evaluating any word as a guess against itself as the secret yields
feedback that is Matched at every position. -/
theorem evaluate_self_allMatched (w : List Char) :
    checkWordGuessResult w w = List.replicate w.length res_matched := by
  rw [checkWordGuessResult, pass1_self, pass2_of_no_unknown]
  intro j hj
  rw [List.getD_eq_getElem _ _ (by simpa using hj), List.getElem_replicate]
  decide

/-- C10: when the guess is not in the word list, CheckWordGuess returns false
and the caller's result string is left completely unchanged. -/
theorem checkWordGuess_notInList (words : List (List Char))
    (secret guess result : List Char) (h : ¬ guess ∈ words) :
    CheckWordGuess words secret guess result = (false, result) := by
  rw [CheckWordGuess,
    if_neg (show ¬ IsWordInList words guess = true from
      fun hc => h ((listContains_iff_mem words guess).mp hc))]

/-- Witness for C10: guess "b" against the store ["a", "c"]. -/
theorem checkWordGuess_notInList_witness :
    (¬ (['b'] : List Char) ∈ [(['a'] : List Char), ['c']]) ∧
    CheckWordGuess [(['a'] : List Char), ['c']] ['a'] ['b'] ['z', 'z'] =
      (false, ['z', 'z']) :=
  ⟨by decide, checkWordGuess_notInList [['a'], ['c']] ['a'] ['b'] ['z', 'z']
    (by decide)⟩

end Mrdle
